import Mathlib

/-
Verification development for the physarum simulator (Rust sources:
src/blur.rs, src/grid.rs, src/model.rs, src/util.rs).

Modeling conventions used throughout this file:
- f32 values are modeled as exact rationals (the verified claims are about
  comparison logic, index arithmetic and exact-arithmetic identities).
- Rust `usize` is modeled as Nat; the cast `f32 as usize` (truncation toward
  zero, saturating at 0 for negative inputs) is modeled as Int.toNat of the
  floor, which agrees with it on all inputs that matter (for q in (-1,0) both
  give 0; for q below -1 the Rust cast saturates to 0, as does Int.toNat).
- Vec<f32> buffers are modeled as total functions Nat -> Rat over flat
  indices (row-major, index = row * width + column, as in the source), or as
  List Rat where the operation needs the finite contents (sorting).
- Sources of randomness (rand::Rng) are modeled as explicit oracle
  parameters: a Boolean coin for a uniform two-way choice, a stream
  Nat -> Rat for a sequence of uniform samples.
-/

/-- Model of `std::f32::consts::TAU` at f32 precision: the nearest binary32
to 2*pi is 13176795 * 2^(-21). Source: used by src/model.rs. -/
def TAU : ℚ := 13176795 / 2097152

/-- Model of `f32::EPSILON` = 2^(-23). Source: used by Grid::quantile in
src/grid.rs. -/
def f32_epsilon : ℚ := 1 / 8388608

/-- Source src/model.rs, Model::pick_direction. Chooses a turning direction
from the three sensed trail values. The uniform choice
`[-1.0, 1.0].choose(rng)` is modeled by the Boolean `coin` oracle
(true picks the first element -1.0, false picks 1.0). -/
def pick_direction (center left right : ℚ) (coin : Bool) : ℤ :=
  if center > left ∧ center > right then 0
  else if center < left ∧ center < right then (if coin then -1 else 1)
  else if left < right then 1
  else if right < left then -1
  else 0

/-- The decision procedure claimed by the spec for the turning direction
`d` (spec section 4.4): d = 0 when center is greater-or-equal to both sides
and strictly greater than at least one; d is one of -1, +1 when center is
strictly below both sides; otherwise d follows the left/right comparison. -/
def specDirOk (center left right : ℚ) (d : ℤ) : Prop :=
  (center ≥ left ∧ center ≥ right ∧ (center > left ∨ center > right) → d = 0) ∧
  (center < left ∧ center < right → d = -1 ∨ d = 1) ∧
  (¬(center ≥ left ∧ center ≥ right ∧ (center > left ∨ center > right)) →
    ¬(center < left ∧ center < right) →
    ((left < right → d = 1) ∧ (right < left → d = -1) ∧
     (¬left < right → ¬right < left → d = 0)))

/-- The decision procedure the code actually implements: d = 0 requires
center strictly greater than both sides; the random branch requires center
strictly below both sides; otherwise the left/right comparison decides. -/
def codeDirOk (center left right : ℚ) (d : ℤ) : Prop :=
  (center > left ∧ center > right → d = 0) ∧
  (¬(center > left ∧ center > right) → center < left ∧ center < right →
    d = -1 ∨ d = 1) ∧
  (¬(center > left ∧ center > right) → ¬(center < left ∧ center < right) →
    ((left < right → d = 1) ∧ (right < left → d = -1) ∧
     (¬left < right → ¬right < left → d = 0)))

/-- Source src/blur.rs, Blur::boxes_for_gaussian, the box width `w`. The f32
expression `(12*sigma^2/N + 1).sqrt() as usize` (a correctly rounded square
root followed by truncation) is modeled exactly as Nat.sqrt of the floor of
the exact rational radicand, which is the floor of its real square root; the
two agree whenever the f32 rounding of the square root does not cross an
integer boundary, which holds at every input used by the claims.
`w -= 1 - (w & 1)` forces the width odd, with `w & 1` modeled as `w % 2`. -/
def box_width (N : ℕ) (sigma : ℚ) : ℕ :=
  Nat.sqrt (Int.toNat ⌊12 * sigma * sigma / (N : ℚ) + 1⌋) -
    (1 - Nat.sqrt (Int.toNat ⌊12 * sigma * sigma / (N : ℚ) + 1⌋) % 2)

/-- Source src/blur.rs, Blur::boxes_for_gaussian, the split point `m`:
`m = round(0.25 * (N*(w+3)) - 3*sigma^2 / (w+1)) as usize`. The f32 `round`
(half away from zero) is modeled by `round` on ℚ (half up); the two agree on
every nonnegative value, in particular at every input used by the claims. -/
def box_split (N : ℕ) (sigma : ℚ) : ℕ :=
  Int.toNat (round ((1 / 4 : ℚ) * ((N * (box_width N sigma + 3) : ℕ) : ℚ)
    - 3 * sigma * sigma / ((box_width N sigma : ℚ) + 1)))

/-- Source src/blur.rs, Blur::boxes_for_gaussian: pass `i` of the `N` box
passes uses radius `(w-1)/2` when `i < m` and `(w+1)/2` otherwise. -/
def boxes_for_gaussian (N : ℕ) (sigma : ℚ) : List ℕ :=
  (List.range N).map (fun i =>
    (if i < box_split N sigma then box_width N sigma - 1 else box_width N sigma + 1) / 2)

/-- Source src/grid.rs, Grid::index. Truncates the continuous position to a
cell and returns the flat row-major index `j * width + i`. The shift by the
grid dimension before the cast handles negative coordinates; the bitmask
`& (dim - 1)` wraps the result (dimensions are powers of two). -/
def grid_index (width height : ℕ) (x y : ℚ) : ℕ :=
  (Int.toNat ⌊y + (height : ℚ)⌋ &&& (height - 1)) * width +
    (Int.toNat ⌊x + (width : ℚ)⌋ &&& (width - 1))

/-- Source src/util.rs, wrap. Branchless single-period wrap:
`x - max * ((x > max) - (x < 0))`, with the Boolean-to-float casts modeled
as indicator values. -/
def wrap (x mx : ℚ) : ℚ :=
  x - mx * ((if x > mx then (1 : ℚ) else 0) - (if x < 0 then (1 : ℚ) else 0))

/-- Source src/model.rs, struct Agent (the population id and stable index
are irrelevant to the verified claims and are omitted). -/
structure Agent where
  x : ℚ
  y : ℚ
  angle : ℚ
deriving DecidableEq

/-- Source src/model.rs, Agent::rotate_and_move. The f32 cosine and sine are
modeled as oracle function parameters `cosf`, `sinf` (the claims only use
that their values lie in [-1, 1]). -/
def rotate_and_move (a : Agent) (direction rotation_angle step_distance : ℚ)
    (width height : ℕ) (cosf sinf : ℚ → ℚ) : Agent :=
  let angle := wrap (a.angle + rotation_angle * direction) TAU
  { x := wrap (a.x + step_distance * cosf angle) (width : ℚ)
    y := wrap (a.y + step_distance * sinf angle) (height : ℚ)
    angle := angle }

/-- Source src/blur.rs, Blur::box_blur_h: the running-window sum built for
the beginning of a row, wrapped around the right edge:
`value = src[w-r-1] + sum over j < r of (src[w-r+j] + src[j])`. -/
def window_init (w r : ℕ) (f : ℕ → ℚ) : ℚ :=
  f (w - r - 1) + ∑ j ∈ Finset.range r, (f (w - r + j) + f j)

/-- Source src/blur.rs: the running sum held after producing output index
i. At each output index the entering sample `(i + radius) & (w - 1)` is
added and the leaving sample `(i + (w - radius) - 1) & (w - 1)` is
subtracted. This recurrence is shared verbatim by the horizontal pass
(per row, Blur::box_blur_h) and the vertical pass (per column of the
scratch row buffer, Blur::box_blur_v). -/
def slide_value (w r : ℕ) (f : ℕ → ℚ) : ℕ → ℚ
  | 0 => window_init w r f + f (r &&& (w - 1)) - f ((w - r - 1) &&& (w - 1))
  | i + 1 => slide_value w r f i + f ((i + 1 + r) &&& (w - 1))
      - f ((i + 1 + (w - r) - 1) &&& (w - 1))

/-- Source src/blur.rs, Blur::box_blur_h: one horizontal box pass over a
flat row-major field; output row j is the sliding-window sum over input
row j scaled by `weight = 1 / (2 * radius + 1)`. -/
def box_blur_h (w r : ℕ) (src : ℕ → ℚ) : ℕ → ℚ := fun idx =>
  slide_value w r (fun t => src (idx / w * w + t)) (idx % w) * (1 / ((2 * r + 1 : ℕ) : ℚ))

/-- Source src/blur.rs, Blur::box_blur_v: one vertical box pass; output row
i of column c is the sliding-window sum along column c scaled by
`weight = decay / (2 * radius + 1)`. The loop-interchanged row buffer of
the source maintains exactly this per-column recurrence. -/
def box_blur_v (w h r : ℕ) (src : ℕ → ℚ) (decay : ℚ) : ℕ → ℚ := fun idx =>
  slide_value h r (fun t => src (t * w + idx % w)) (idx / w) * (decay / ((2 * r + 1 : ℕ) : ℚ))

/-- Source src/blur.rs, Blur::box_blur: horizontal pass from the field into
the scratch buffer, then vertical pass from the scratch back into the
field. Returns (new field, new scratch). The scratch contents before the
call are never read (the horizontal pass overwrites every entry), so the
model does not take them as input. -/
def box_blur (w h r : ℕ) (src : ℕ → ℚ) (decay : ℚ) : (ℕ → ℚ) × (ℕ → ℚ) :=
  (box_blur_v w h r (box_blur_h w r src) decay, box_blur_h w r src)

/-- Source src/blur.rs, Blur::run: two box passes ping-ponging between the
field and the scratch, radii from boxes_for_gaussian with N = 2, the first
pass with unit decay and the second with the supplied decay. -/
def blur_run (w h : ℕ) (src : ℕ → ℚ) (sigma decay : ℚ) : (ℕ → ℚ) × (ℕ → ℚ) :=
  box_blur w h ((boxes_for_gaussian 2 sigma).getD 1 0)
    (box_blur w h ((boxes_for_gaussian 2 sigma).getD 0 0) src 1).1 decay

/-- The naive periodic moving average the spec describes (sections 4.1 and
8): output i is `weight * sum over k in [-r, r] of src[(i + k) mod len]`
with `weight = decay / (2 * r + 1)`. -/
def box_ref_1d (len r : ℕ) (f : ℕ → ℚ) (decay : ℚ) (i : ℕ) : ℚ :=
  (decay / ((2 * r + 1 : ℕ) : ℚ)) *
    ∑ k ∈ Finset.Icc (-(r : ℤ)) (r : ℤ), f (((i : ℤ) + k) % (len : ℤ)).toNat

/-- Working form of the periodic window sum, over Nat indices: the sum of
f((i + (w - r) + k) mod w) for k < 2r + 1. -/
def window_sum (w r : ℕ) (f : ℕ → ℚ) (i : ℕ) : ℚ :=
  ∑ k ∈ Finset.range (2 * r + 1), f ((i + (w - r) + k) % w)

/-- The sum of all width * height cells of a flat row-major field. -/
def field_sum (w h : ℕ) (f : ℕ → ℚ) : ℚ :=
  ∑ j ∈ Finset.range h, ∑ i ∈ Finset.range w, f (j * w + i)

/-- Source src/grid.rs, struct Grid. The field `data` and the blur scratch
`buf` (which doubles as the mixing buffer written by combine) are flat
row-major functions. Of the population configuration only the decay factor
is kept, the single config field the verified claims touch; the source
samples it from gen_range(0.1..=0.1), which is constantly 0.1. -/
structure Grid where
  width : ℕ
  height : ℕ
  data : ℕ → ℚ
  buf : ℕ → ℚ
  decay_factor : ℚ

instance : Inhabited Grid := ⟨⟨0, 0, fun _ => 0, fun _ => 0, 0⟩⟩

/-- Model of `usize::is_power_of_two` (true exactly when the value has a
single set bit, that is, equals 2^k for some k; the search bound n + 1 is
sufficient because k ≤ 2^k). This is a Rust standard-library function, not
repository code, so it is modeled by its documented meaning. -/
def is_power_of_two (n : ℕ) : Bool :=
  (List.range (n + 1)).any (fun k => n == 2 ^ k)

/-- Source src/grid.rs, Grid::new. The panic on non-power-of-two dimensions
is modeled as none. On success the field holds the RNG sample stream (the
source takes the first width * height samples; indices past that are never
read), the scratch buffer is zeroed, and the decay factor is the constant
0.1 sampled by PopulationConfig::new. -/
def Grid.new (w h : ℕ) (rng : ℕ → ℚ) : Option Grid :=
  if is_power_of_two w && is_power_of_two h then
    some { width := w, height := h, data := rng, buf := fun _ => 0, decay_factor := 1 / 10 }
  else none

/-- Source src/grid.rs, Grid::diffuse: runs the blur on the field, with the
mix buffer as the scratch surface, sigma equal to the radius cast to float
and the population decay factor. -/
def Grid.diffuse (g : Grid) (radius : ℕ) : Grid :=
  { g with
    data := (blur_run g.width g.height g.data ((radius : ℕ) : ℚ) g.decay_factor).1
    buf := (blur_run g.width g.height g.data ((radius : ℕ) : ℚ) g.decay_factor).2 }

/-- Source src/grid.rs, Grid::get_buf: reads the mix buffer at the cell the
position truncates to. -/
def Grid.get_buf (g : Grid) (x y : ℚ) : ℚ :=
  g.buf (grid_index g.width g.height x y)

/-- Source src/grid.rs, combine, inner accumulation for one grid: the mix
buffer is zeroed (`buf.fill(0.0)`, the fold's zero start) and then, for
every grid index j in order, `data_j * attraction_table_row[j]` is added
element-wise. -/
def combine_buf (datas : List (ℕ → ℚ)) (row : List ℚ) : ℕ → ℚ :=
  (List.range datas.length).foldl
    (fun acc j => fun idx => acc idx + datas.getD j (fun _ => 0) idx * row.getD j 0)
    (fun _ => 0)

/-- Source src/grid.rs, combine: every grid i keeps its field and replaces
its mix buffer by the attraction-weighted element-wise combination of all
grids' fields, using row i of the attraction table. -/
def combine (grids : List Grid) (attraction_table : List (List ℚ)) : List Grid :=
  (List.range grids.length).map (fun i =>
    { grids.getD i default with
      buf := combine_buf (grids.map Grid.data) (attraction_table.getD i []) })

/-- Source src/grid.rs, Grid::quantile. `select_nth_unstable_by` places at
the requested position the element that an ascending sort would put there,
and the source then reads that position; over a totally ordered element
type the value read equals the sorted copy at that index, which is how it
is modeled. The index is data.len() - 1 when fraction is within
f32::EPSILON of 1.0, otherwise the truncation of len * fraction. -/
def quantile (data : List ℚ) (fraction : ℚ) : ℚ :=
  (data.insertionSort (· ≤ ·)).getD
    (if |fraction - 1| < f32_epsilon then data.length - 1
     else Int.toNat ⌊(data.length : ℚ) * fraction⌋) 0

/-- The nearest-rank selection described by claim C6: the sorted value at
index ceil(fraction * N), clamped to N - 1. -/
def quantile_spec (data : List ℚ) (fraction : ℚ) : ℚ :=
  (data.insertionSort (· ≤ ·)).getD
    (min (Int.toNat ⌈(data.length : ℚ) * fraction⌉) (data.length - 1)) 0

/-- The claim C1 decision procedure fails on the code: with sensed values
center = 1, left = 1, right = 0 the spec procedure requires direction 0
(center is greater-or-equal to both and strictly greater than right), but
Model::pick_direction returns -1 (its first branch demands center strictly
greater than both sides, so it falls through to the right < left branch). -/
theorem claim_C1_counterexample :
    ¬ specDirOk 1 1 0 (pick_direction 1 1 0 true) := by
  unfold specDirOk pick_direction
  decide

/-- Claim C1, amended: for every triple of sensed values and every outcome
of the random coin, the direction returned by Model::pick_direction is 0
when center is strictly greater than both left and right; is one of -1, +1
(drawn from the coin) when center is strictly less than both; and otherwise
is +1 when left < right, -1 when right < left, and 0 when neither holds. -/
theorem claim_C1_amended (center left right : ℚ) (coin : Bool) :
    codeDirOk center left right (pick_direction center left right coin) := by
  unfold codeDirOk pick_direction
  refine ⟨?_, ?_, ?_⟩
  · intro h
    simp [h]
  · intro h1 h2
    rw [if_neg h1, if_pos h2]
    cases coin <;> simp
  · intro h1 h2
    rw [if_neg h1, if_neg h2]
    refine ⟨?_, ?_, ?_⟩
    · intro h3
      simp [h3]
    · intro h3
      rw [if_neg (by exact fun h => absurd h3 (by simp [le_of_lt h]))]
      simp [h3]
    · intro h3 h4
      rw [if_neg h3, if_neg h4]

/-- Claim C1 amended, instantiated: in the ambiguous-minimum case
(center = 0 strictly below left = right = 1) the coin outcome true yields
direction -1, which the amended procedure accepts. -/
theorem claim_C1_witness :
    codeDirOk 0 1 1 (pick_direction 0 1 1 true) :=
  claim_C1_amended 0 1 1 true

lemma box_width_sigma15 : box_width 3 (3/2) = 3 := by
  have h : ⌊12 * (3/2 : ℚ) * (3/2) / ((3 : ℕ) : ℚ) + 1⌋ = 10 := by
    rw [Int.floor_eq_iff]
    norm_num
  unfold box_width
  rw [h]
  show Nat.sqrt (10) - (1 - Nat.sqrt (10) % 2) = 3
  norm_num

lemma box_width_sigma18 : box_width 3 (9/5) = 3 := by
  have h : ⌊12 * (9/5 : ℚ) * (9/5) / ((3 : ℕ) : ℚ) + 1⌋ = 13 := by
    rw [Int.floor_eq_iff]
    norm_num
  unfold box_width
  rw [h]
  show Nat.sqrt (13) - (1 - Nat.sqrt (13) % 2) = 3
  norm_num

lemma box_width_sigma25 : box_width 3 (5/2) = 5 := by
  have h : ⌊12 * (5/2 : ℚ) * (5/2) / ((3 : ℕ) : ℚ) + 1⌋ = 26 := by
    rw [Int.floor_eq_iff]
    norm_num
  unfold box_width
  rw [h]
  show Nat.sqrt (26) - (1 - Nat.sqrt (26) % 2) = 5
  norm_num

lemma box_split_sigma15 : box_split 3 (3/2) = 3 := by
  unfold box_split
  rw [box_width_sigma15]
  have h : round ((1 / 4 : ℚ) * (((3 * (3 + 3) : ℕ)) : ℚ)
      - 3 * (3/2 : ℚ) * (3/2) / (((3 : ℕ) : ℚ) + 1)) = 3 := by
    rw [round_eq, Int.floor_eq_iff]
    norm_num
  rw [h]
  rfl

lemma box_split_sigma18 : box_split 3 (9/5) = 2 := by
  unfold box_split
  rw [box_width_sigma18]
  have h : round ((1 / 4 : ℚ) * (((3 * (3 + 3) : ℕ)) : ℚ)
      - 3 * (9/5 : ℚ) * (9/5) / (((3 : ℕ) : ℚ) + 1)) = 2 := by
    rw [round_eq, Int.floor_eq_iff]
    norm_num
  rw [h]
  rfl

lemma box_split_sigma25 : box_split 3 (5/2) = 3 := by
  unfold box_split
  rw [box_width_sigma25]
  have h : round ((1 / 4 : ℚ) * (((3 * (5 + 3) : ℕ)) : ℚ)
      - 3 * (5/2 : ℚ) * (5/2) / (((5 : ℕ) : ℚ) + 1)) = 3 := by
    rw [round_eq, Int.floor_eq_iff]
    norm_num
  rw [h]
  rfl

/-- Claim C7: the box-radius selection of src/blur.rs with K = 3 passes
returns [1,1,1] for sigma = 1.5, [1,1,2] for sigma = 1.8 and [2,2,2] for
sigma = 2.5, following the rule w = floor(sqrt(12 sigma^2 / K + 1)) forced
odd, m = round(K(w+3)/4 - 3 sigma^2/(w+1)), first m passes with radius
(w-1)/2 and the rest with radius (w+1)/2. -/
theorem claim_C7_reference_values :
    boxes_for_gaussian 3 (3/2) = [1, 1, 1] ∧
    boxes_for_gaussian 3 (9/5) = [1, 1, 2] ∧
    boxes_for_gaussian 3 (5/2) = [2, 2, 2] := by
  refine ⟨?_, ?_, ?_⟩ <;> unfold boxes_for_gaussian
  · simp only [box_width_sigma15, box_split_sigma15]
    decide
  · simp only [box_width_sigma18, box_split_sigma18]
    decide
  · simp only [box_width_sigma25, box_split_sigma25]
    decide

/-- Claim C8: on an 8 x 8 grid the shift-then-mask truncation of
Grid::index maps the position (-0.5, -0.6) and the position (7, 7) to the
same cell, so sampling the mix buffer at either position reads the same
entry, whatever the buffer holds. -/
theorem claim_C8_wraparound :
    grid_index 8 8 (-(1/2)) (-(3/5)) = grid_index 8 8 7 7 ∧
    ∀ g : Grid, g.width = 8 → g.height = 8 →
      g.get_buf (-(1/2)) (-(3/5)) = g.get_buf 7 7 := by
  have h1 : ⌊(-(1/2) : ℚ) + ((8 : ℕ) : ℚ)⌋ = 7 := by
    rw [Int.floor_eq_iff]
    norm_num
  have h2 : ⌊(-(3/5) : ℚ) + ((8 : ℕ) : ℚ)⌋ = 7 := by
    rw [Int.floor_eq_iff]
    norm_num
  have h3 : ⌊(7 : ℚ) + ((8 : ℕ) : ℚ)⌋ = 15 := by
    rw [Int.floor_eq_iff]
    norm_num
  have hidx : grid_index 8 8 (-(1/2)) (-(3/5)) = grid_index 8 8 7 7 := by
    unfold grid_index
    rw [h1, h2, h3]
    rfl
  refine ⟨hidx, ?_⟩
  intro g hgw hgh
  unfold Grid.get_buf
  rw [hgw, hgh, hidx]

/-- Claim C8, instantiated on a concrete 8 x 8 grid whose buffer stores the
flat index. -/
theorem claim_C8_witness :
    (⟨8, 8, fun _ => 0, fun n => (n : ℚ), 0⟩ : Grid).get_buf (-(1/2)) (-(3/5))
      = (⟨8, 8, fun _ => 0, fun n => (n : ℚ), 0⟩ : Grid).get_buf 7 7 :=
  claim_C8_wraparound.2 ⟨8, 8, fun _ => 0, fun n => (n : ℚ), 0⟩ rfl rfl

lemma land_mask {w : ℕ} (m : ℕ) (hw : w = 2 ^ m) (n : ℕ) : n &&& (w - 1) = n % w := by
  subst hw
  exact Nat.and_pow_two_sub_one_eq_mod n m

lemma slide_value_eq_window_sum {w r : ℕ} (m : ℕ) (hw : w = 2 ^ m) (hr : r < w)
    (f : ℕ → ℚ) : ∀ i, slide_value w r f i = window_sum w r f i := by
  intro i
  induction i with
  | zero =>
    have h1 : w - r - 1 < w := by omega
    have hsplit : ∑ k ∈ Finset.range (2 * r + 1), f ((0 + (w - r) + k) % w)
        = (∑ k ∈ Finset.range r, f (w - r + k)) + ∑ k ∈ Finset.range (r + 1), f k := by
      simp only [Nat.zero_add]
      calc ∑ k ∈ Finset.range (2 * r + 1), f ((w - r + k) % w)
          = ∑ k ∈ Finset.Ico 0 (2 * r + 1), f ((w - r + k) % w) := by
            rw [Finset.range_eq_Ico]
        _ = (∑ k ∈ Finset.Ico 0 r, f ((w - r + k) % w))
            + ∑ k ∈ Finset.Ico r (2 * r + 1), f ((w - r + k) % w) :=
            (Finset.sum_Ico_consecutive (fun k => f ((w - r + k) % w)) (Nat.zero_le r)
              (show r ≤ 2 * r + 1 by omega)).symm
        _ = (∑ k ∈ Finset.range r, f (w - r + k)) + ∑ k ∈ Finset.range (r + 1), f k := by
            congr 1
            · rw [← Finset.range_eq_Ico]
              refine Finset.sum_congr rfl fun k hk => ?_
              have hk2 : k < r := Finset.mem_range.mp hk
              rw [Nat.mod_eq_of_lt (by omega)]
            · rw [Finset.sum_Ico_eq_sum_range, show 2 * r + 1 - r = r + 1 by omega]
              refine Finset.sum_congr rfl fun k hk => ?_
              have hk2 : k < r + 1 := Finset.mem_range.mp hk
              rw [show w - r + (r + k) = k + w by omega, Nat.add_mod_right,
                Nat.mod_eq_of_lt (show k < w by omega)]
    simp only [window_sum]
    rw [hsplit]
    simp only [slide_value, window_init, land_mask m hw]
    rw [Nat.mod_eq_of_lt hr, Nat.mod_eq_of_lt h1, Finset.sum_add_distrib,
      Finset.sum_range_succ]
    ring
  | succ i ih =>
    have hstep : i + 1 + (w - r) - 1 = i + (w - r) := by omega
    simp only [slide_value, land_mask m hw, hstep]
    rw [ih]
    have hvi : ∀ j : ℕ, window_sum w r f j
        = ∑ t ∈ Finset.Ico j (j + (2 * r + 1)), f ((t + (w - r)) % w) := by
      intro j
      rw [Finset.sum_Ico_eq_sum_range, show j + (2 * r + 1) - j = 2 * r + 1 by omega]
      simp only [window_sum]
      refine Finset.sum_congr rfl fun k _ => ?_
      congr 2
      omega
    rw [hvi (i + 1), hvi i,
      show i + 1 + (2 * r + 1) = (i + (2 * r + 1)) + 1 by omega,
      Finset.sum_Ico_succ_top (show i + 1 ≤ i + (2 * r + 1) by omega),
      Finset.sum_eq_sum_Ico_succ_bot (show i < i + (2 * r + 1) by omega)]
    have hgtop : f ((i + (2 * r + 1) + (w - r)) % w) = f ((i + 1 + r) % w) := by
      congr 1
      rw [show i + (2 * r + 1) + (w - r) = (i + 1 + r) + w by omega, Nat.add_mod_right]
    rw [hgtop]
    ring

lemma natMod_eq_int_emod (a b : ℕ) : (a % b : ℕ) = (((a : ℤ) % (b : ℤ))).toNat := by
  rw [← Int.natCast_mod, Int.toNat_natCast]

lemma window_sum_eq_Icc {w : ℕ} (_hw0 : 0 < w) {r : ℕ} (hr : r ≤ w) (f : ℕ → ℚ) (i : ℕ) :
    window_sum w r f i
      = ∑ k ∈ Finset.Icc (-(r : ℤ)) (r : ℤ), f (((i : ℤ) + k) % (w : ℤ)).toNat := by
  rw [window_sum]
  refine Finset.sum_nbij' (fun k : ℕ => (k : ℤ) - (r : ℤ))
    (fun k : ℤ => (k + (r : ℤ)).toNat) ?_ ?_ ?_ ?_ ?_
  · intro a ha
    have ha2 : a < 2 * r + 1 := Finset.mem_range.mp ha
    show (a : ℤ) - (r : ℤ) ∈ Finset.Icc (-(r : ℤ)) (r : ℤ)
    simp only [Finset.mem_Icc]
    omega
  · intro a ha
    simp only [Finset.mem_Icc] at ha
    show (a + (r : ℤ)).toNat ∈ Finset.range (2 * r + 1)
    simp only [Finset.mem_range]
    omega
  · intro a _
    show (((a : ℤ) - (r : ℤ)) + (r : ℤ)).toNat = a
    omega
  · intro a ha
    simp only [Finset.mem_Icc] at ha
    show (((a + (r : ℤ)).toNat : ℤ)) - (r : ℤ) = a
    omega
  · intro a ha
    have ha2 : a < 2 * r + 1 := Finset.mem_range.mp ha
    show f ((i + (w - r) + a) % w) = f (((i : ℤ) + ((a : ℤ) - (r : ℤ))) % (w : ℤ)).toNat
    congr 1
    have hcast : ((i + (w - r) + a : ℕ) : ℤ) = (i : ℤ) + ((a : ℤ) - (r : ℤ)) + (w : ℤ) := by
      omega
    rw [natMod_eq_int_emod]
    congr 1
    rw [hcast, Int.add_emod_self]

/-- Claim C2: on a power-of-two-length row (respectively column) and any
radius r below the length, the sliding-window running-sum implementation of
one box pass (with bitmask wraparound) computes at every position exactly
weight times the periodic moving average of the source, with
weight = decay / (2r + 1) (decay = 1 for the horizontal pass, which the
source hard-codes). -/
theorem claim_C2_box_pass_refinement (w h r : ℕ) (mw mh : ℕ) (hw : w = 2 ^ mw)
    (hh : h = 2 ^ mh) (hrw : r < w) (hrh : r < h) (src : ℕ → ℚ) (decay : ℚ)
    (j i : ℕ) (hi : i < w) (_hj : j < h) :
    box_blur_h w r src (j * w + i) = box_ref_1d w r (fun t => src (j * w + t)) 1 i ∧
    box_blur_v w h r src decay (j * w + i)
      = box_ref_1d h r (fun t => src (t * w + i)) decay j := by
  have hw0 : 0 < w := by omega
  have hh0 : 0 < h := by omega
  have hdiv : (j * w + i) / w = j := by
    rw [show j * w + i = w * j + i by ring, Nat.mul_add_div hw0,
      Nat.div_eq_of_lt hi, Nat.add_zero]
  have hmod : (j * w + i) % w = i := by
    rw [show j * w + i = w * j + i by ring, Nat.mul_add_mod, Nat.mod_eq_of_lt hi]
  constructor
  · simp only [box_blur_h, box_ref_1d]
    rw [hdiv, hmod, slide_value_eq_window_sum mw hw hrw,
      window_sum_eq_Icc hw0 (le_of_lt hrw)]
    ring
  · simp only [box_blur_v, box_ref_1d]
    rw [hdiv, hmod, slide_value_eq_window_sum mh hh hrh,
      window_sum_eq_Icc hh0 (le_of_lt hrh)]
    ring

/-- Claim C2, instantiated at a 4 x 4 field with radius 1, source value
equal to the flat index, decay 1/2, output row 1 and column 2. -/
theorem claim_C2_witness :
    box_blur_h 4 1 (fun idx => (idx : ℚ)) (1 * 4 + 2)
        = box_ref_1d 4 1 (fun t => ((1 * 4 + t : ℕ) : ℚ)) 1 2 ∧
    box_blur_v 4 4 1 (fun idx => (idx : ℚ)) (1 / 2) (1 * 4 + 2)
        = box_ref_1d 4 1 (fun t => ((t * 4 + 2 : ℕ) : ℚ)) (1 / 2) 1 :=
  claim_C2_box_pass_refinement 4 4 1 2 2 (by norm_num) (by norm_num) (by norm_num)
    (by norm_num) (fun idx => (idx : ℚ)) (1 / 2) 1 2 (by norm_num) (by norm_num)

lemma box_blur_h_apply {w : ℕ} (r : ℕ) (src : ℕ → ℚ) (j i : ℕ) (hw0 : 0 < w)
    (hi : i < w) :
    box_blur_h w r src (j * w + i)
      = slide_value w r (fun t => src (j * w + t)) i * (1 / ((2 * r + 1 : ℕ) : ℚ)) := by
  have hdiv : (j * w + i) / w = j := by
    rw [show j * w + i = w * j + i by ring, Nat.mul_add_div hw0,
      Nat.div_eq_of_lt hi, Nat.add_zero]
  have hmod : (j * w + i) % w = i := by
    rw [show j * w + i = w * j + i by ring, Nat.mul_add_mod, Nat.mod_eq_of_lt hi]
  simp only [box_blur_h]
  rw [hdiv, hmod]

lemma box_blur_v_apply {w : ℕ} (h r : ℕ) (src : ℕ → ℚ) (decay : ℚ) (j i : ℕ)
    (hw0 : 0 < w) (hi : i < w) :
    box_blur_v w h r src decay (j * w + i)
      = slide_value h r (fun t => src (t * w + i)) j * (decay / ((2 * r + 1 : ℕ) : ℚ)) := by
  have hdiv : (j * w + i) / w = j := by
    rw [show j * w + i = w * j + i by ring, Nat.mul_add_div hw0,
      Nat.div_eq_of_lt hi, Nat.add_zero]
  have hmod : (j * w + i) % w = i := by
    rw [show j * w + i = w * j + i by ring, Nat.mul_add_mod, Nat.mod_eq_of_lt hi]
  simp only [box_blur_v]
  rw [hdiv, hmod]

lemma sum_range_mod_shift {w : ℕ} (hw0 : 0 < w) (c : ℕ) (f : ℕ → ℚ) :
    ∑ i ∈ Finset.range w, f ((i + c) % w) = ∑ i ∈ Finset.range w, f i := by
  refine Finset.sum_nbij' (fun i : ℕ => (i + c) % w)
    (fun i : ℕ => (i + (w - c % w)) % w) ?_ ?_ ?_ ?_ ?_
  · intro a _
    show (a + c) % w ∈ Finset.range w
    simp only [Finset.mem_range]
    exact Nat.mod_lt _ hw0
  · intro a _
    show (a + (w - c % w)) % w ∈ Finset.range w
    simp only [Finset.mem_range]
    exact Nat.mod_lt _ hw0
  · intro a ha
    have haw : a < w := Finset.mem_range.mp ha
    show ((a + c) % w + (w - c % w)) % w = a
    rw [Nat.mod_add_mod]
    have hq : w * (c / w) + c % w = c := Nat.div_add_mod c w
    have hm : c % w < w := Nat.mod_lt _ hw0
    have harg : a + c + (w - c % w) = a + w * (c / w + 1) := by
      have expand : w * (c / w + 1) = w * (c / w) + w := by ring
      omega
    rw [harg, Nat.add_mul_mod_self_left]
    exact Nat.mod_eq_of_lt haw
  · intro a ha
    have haw : a < w := Finset.mem_range.mp ha
    show ((a + (w - c % w)) % w + c) % w = a
    rw [Nat.mod_add_mod]
    have hq : w * (c / w) + c % w = c := Nat.div_add_mod c w
    have hm : c % w < w := Nat.mod_lt _ hw0
    have harg : a + (w - c % w) + c = a + w * (c / w + 1) := by
      have expand : w * (c / w + 1) = w * (c / w) + w := by ring
      omega
    rw [harg, Nat.add_mul_mod_self_left]
    exact Nat.mod_eq_of_lt haw
  · intro a _
    rfl

lemma window_sum_total {w : ℕ} (hw0 : 0 < w) (r : ℕ) (f : ℕ → ℚ) :
    ∑ i ∈ Finset.range w, window_sum w r f i
      = ((2 * r + 1 : ℕ) : ℚ) * ∑ i ∈ Finset.range w, f i := by
  simp only [window_sum]
  rw [Finset.sum_comm]
  have hshift : ∀ k : ℕ, ∑ i ∈ Finset.range w, f ((i + (w - r) + k) % w)
      = ∑ i ∈ Finset.range w, f i := by
    intro k
    have hs := sum_range_mod_shift hw0 ((w - r) + k) f
    calc ∑ i ∈ Finset.range w, f ((i + (w - r) + k) % w)
        = ∑ i ∈ Finset.range w, f ((i + ((w - r) + k)) % w) := by
          refine Finset.sum_congr rfl fun i _ => ?_
          congr 2
          omega
      _ = ∑ i ∈ Finset.range w, f i := hs
  rw [Finset.sum_congr rfl (fun k _ => hshift k), Finset.sum_const, Finset.card_range,
    nsmul_eq_mul]

lemma weight_cast_ne_zero (r : ℕ) : ((2 * r + 1 : ℕ) : ℚ) ≠ 0 := by
  have : (0 : ℚ) < ((2 * r + 1 : ℕ) : ℚ) := by
    exact_mod_cast Nat.succ_pos (2 * r)
  exact ne_of_gt this

lemma field_sum_box_blur_h {w : ℕ} (m : ℕ) (hw : w = 2 ^ m) (h r : ℕ) (hr : r < w)
    (src : ℕ → ℚ) :
    field_sum w h (box_blur_h w r src) = field_sum w h src := by
  have hw0 : 0 < w := by omega
  unfold field_sum
  refine Finset.sum_congr rfl fun j _ => ?_
  rw [Finset.sum_congr rfl
    (fun i hi => box_blur_h_apply r src j i hw0 (Finset.mem_range.mp hi))]
  rw [Finset.sum_congr rfl
    (fun i _ => by rw [slide_value_eq_window_sum m hw hr (fun t => src (j * w + t)) i])]
  rw [← Finset.sum_mul, window_sum_total hw0 r (fun t => src (j * w + t))]
  rw [mul_comm, ← mul_assoc, one_div,
    inv_mul_cancel₀ (weight_cast_ne_zero r), one_mul]

lemma field_sum_box_blur_v {w h : ℕ} (m : ℕ) (hh : h = 2 ^ m) (r : ℕ) (hr : r < h)
    (hw0 : 0 < w) (src : ℕ → ℚ) (decay : ℚ) :
    field_sum w h (box_blur_v w h r src decay) = decay * field_sum w h src := by
  have hh0 : 0 < h := by omega
  unfold field_sum
  rw [Finset.sum_comm]
  have hcol : ∀ i, i < w → ∑ j ∈ Finset.range h, box_blur_v w h r src decay (j * w + i)
      = decay * ∑ j ∈ Finset.range h, src (j * w + i) := by
    intro i hi
    rw [Finset.sum_congr rfl
      (fun j _ => box_blur_v_apply h r src decay j i hw0 hi)]
    rw [Finset.sum_congr rfl
      (fun j _ => by rw [slide_value_eq_window_sum m hh hr (fun t => src (t * w + i)) j])]
    rw [← Finset.sum_mul, window_sum_total hh0 r (fun t => src (t * w + i))]
    have hne := weight_cast_ne_zero r
    field_simp
    ring
  rw [Finset.sum_congr rfl (fun i hi => hcol i (Finset.mem_range.mp hi)),
    ← Finset.mul_sum, Finset.sum_comm]

/-- Claim C5: on a power-of-two periodic grid, one full box pass (horizontal
then vertical) with decay = 1 preserves the sum of all field values, in
exact arithmetic, for any radius below both dimensions. -/
theorem claim_C5_sum_preservation (w h r mw mh : ℕ) (hw : w = 2 ^ mw) (hh : h = 2 ^ mh)
    (hrw : r < w) (hrh : r < h) (src : ℕ → ℚ) :
    field_sum w h (box_blur w h r src 1).1 = field_sum w h src := by
  have hw0 : 0 < w := by omega
  show field_sum w h (box_blur_v w h r (box_blur_h w r src) 1) = field_sum w h src
  rw [field_sum_box_blur_v mh hh r hrh hw0 (box_blur_h w r src) 1, one_mul,
    field_sum_box_blur_h mw hw h r hrw src]

/-- Claim C5, instantiated at a 2 x 2 field with radius 1 and field value
equal to the flat index. -/
theorem claim_C5_witness :
    field_sum 2 2 (box_blur 2 2 1 (fun idx => (idx : ℚ)) 1).1
      = field_sum 2 2 (fun idx => (idx : ℚ)) :=
  claim_C5_sum_preservation 2 2 1 1 1 (by norm_num) (by norm_num) (by norm_num)
    (by norm_num) (fun idx => (idx : ℚ))

/-- Claim C10: Grid::diffuse hands the mix buffer to the blur as scratch,
so after every diffuse call the buffer holds the horizontal-pass
intermediate of the final box pass (not the attraction-combined signal),
the final field is the vertical pass applied to that very scratch, and the
result of diffuse is entirely independent of the prior buffer contents. -/
theorem claim_C10_diffuse_scratch (g : Grid) (radius : ℕ) (b2 : ℕ → ℚ) :
    (g.diffuse radius).buf
        = box_blur_h g.width ((boxes_for_gaussian 2 ((radius : ℕ) : ℚ)).getD 1 0)
            (box_blur g.width g.height
              ((boxes_for_gaussian 2 ((radius : ℕ) : ℚ)).getD 0 0) g.data 1).1 ∧
    (g.diffuse radius).data
        = box_blur_v g.width g.height ((boxes_for_gaussian 2 ((radius : ℕ) : ℚ)).getD 1 0)
            ((g.diffuse radius).buf) g.decay_factor ∧
    ({ g with buf := b2 } : Grid).diffuse radius = g.diffuse radius :=
  ⟨rfl, rfl, rfl⟩

lemma combine_length (grids : List Grid) (t : List (List ℚ)) :
    (combine grids t).length = grids.length := by
  simp [combine]

lemma combine_getD (grids : List Grid) (t : List (List ℚ)) (i : ℕ)
    (hi : i < grids.length) :
    (combine grids t).getD i default
      = { grids.getD i default with
          buf := combine_buf (grids.map Grid.data) (t.getD i []) } := by
  unfold combine
  have hlen : i < ((List.range grids.length).map (fun i =>
      ({ grids.getD i default with
        buf := combine_buf (grids.map Grid.data) (t.getD i []) } : Grid))).length := by
    simpa using hi
  rw [List.getD_eq_getElem _ _ hlen, List.getElem_map, List.getElem_range]

lemma combine_map_data (grids : List Grid) (t : List (List ℚ)) :
    (combine grids t).map Grid.data = grids.map Grid.data := by
  unfold combine
  rw [List.map_map]
  refine List.ext_getElem (by simp) fun n h1 h2 => ?_
  simp only [List.getElem_map, Function.comp_apply, List.getElem_range]
  have hn : n < grids.length := by simpa using h2
  rw [List.getD_eq_getElem _ _ hn]

lemma combine_buf_apply (datas : List (ℕ → ℚ)) (row : List ℚ) (idx : ℕ) :
    combine_buf datas row idx
      = ∑ j ∈ Finset.range datas.length,
          datas.getD j (fun _ => 0) idx * row.getD j 0 := by
  suffices hgen : ∀ n, ((List.range n).foldl
      (fun acc j => fun idx2 => acc idx2 + datas.getD j (fun _ => 0) idx2 * row.getD j 0)
      (fun _ => 0)) idx
      = ∑ j ∈ Finset.range n, datas.getD j (fun _ => 0) idx * row.getD j 0 by
    exact hgen datas.length
  intro n
  induction n with
  | zero => simp
  | succ n ih =>
    rw [List.range_succ, List.foldl_append, Finset.sum_range_succ]
    simp only [List.foldl_cons, List.foldl_nil]
    rw [ih]

/-- Claim C4: combine sets grid i's mix buffer to exactly the sum over j of
attractionTable[i][j] * grids[j].field, elementwise and independently of
the buffer's prior contents (the formula only mentions the fields and the
table); no grid's field is modified; and a second combine with unchanged
fields reproduces the same mix buffer. -/
theorem claim_C4_combine (grids : List Grid) (table : List (List ℚ)) (i : ℕ)
    (hi : i < grids.length) (idx : ℕ) :
    ((combine grids table).getD i default).buf idx
        = ∑ j ∈ Finset.range grids.length,
            (grids.getD j default).data idx * (table.getD i []).getD j 0 ∧
    ((combine grids table).getD i default).data = (grids.getD i default).data ∧
    ((combine (combine grids table) table).getD i default).buf idx
        = ((combine grids table).getD i default).buf idx := by
  have hgdata : ∀ j, j < grids.length →
      (grids.map Grid.data).getD j (fun _ => 0) = (grids.getD j default).data := by
    intro j hj
    have hj2 : j < (grids.map Grid.data).length := by simpa using hj
    rw [List.getD_eq_getElem _ _ hj2, List.getElem_map, List.getD_eq_getElem _ _ hj]
  refine ⟨?_, ?_, ?_⟩
  · rw [combine_getD grids table i hi]
    show combine_buf (grids.map Grid.data) (table.getD i []) idx = _
    rw [combine_buf_apply]
    rw [show (grids.map Grid.data).length = grids.length from by simp]
    refine Finset.sum_congr rfl fun j hj => ?_
    rw [hgdata j (Finset.mem_range.mp hj)]
  · rw [combine_getD grids table i hi]
  · have hi2 : i < (combine grids table).length := by
      rw [combine_length]
      exact hi
    rw [combine_getD (combine grids table) table i hi2, combine_getD grids table i hi]
    show combine_buf ((combine grids table).map Grid.data) (table.getD i []) idx
        = combine_buf (grids.map Grid.data) (table.getD i []) idx
    rw [combine_map_data]

/-- Claim C4, instantiated on two one-cell grids with fields 2 and 5 and
attraction row [1, 2], read at cell 0. -/
theorem claim_C4_witness :
    ((combine [⟨1, 1, fun _ => 2, fun _ => 9, 0⟩, ⟨1, 1, fun _ => 5, fun _ => 7, 0⟩]
        [[1, 2], [3, 4]]).getD 0 default).buf 0
      = ∑ j ∈ Finset.range
          ([⟨1, 1, fun _ => 2, fun _ => 9, 0⟩,
            ⟨1, 1, fun _ => 5, fun _ => 7, 0⟩] : List Grid).length,
          (([⟨1, 1, fun _ => 2, fun _ => 9, 0⟩,
             ⟨1, 1, fun _ => 5, fun _ => 7, 0⟩] : List Grid).getD j default).data 0
            * (([[1, 2], [3, 4]] : List (List ℚ)).getD 0 []).getD j 0 :=
  (claim_C4_combine
    [⟨1, 1, fun _ => 2, fun _ => 9, 0⟩, ⟨1, 1, fun _ => 5, fun _ => 7, 0⟩]
    [[1, 2], [3, 4]] 0 (by simp) 0).1

lemma wrap_eq_ite (x mx : ℚ) (hmx : 0 < mx) :
    wrap x mx = if mx < x then x - mx else if x < 0 then x + mx else x := by
  unfold wrap
  by_cases h1 : mx < x
  · by_cases h2 : x < 0
    · exact absurd h2 (by linarith)
    · rw [if_pos (show x > mx from h1), if_neg h2, if_pos h1]
      ring
  · rw [if_neg (show ¬ x > mx from h1), if_neg h1]
    by_cases h2 : x < 0
    · rw [if_pos h2, if_pos h2]
      ring
    · rw [if_neg h2, if_neg h2]
      ring

lemma wrap_bounds {x mx : ℚ} (hmx : 0 < mx) (hlo : -mx ≤ x) (hhi : x ≤ 2 * mx) :
    0 ≤ wrap x mx ∧ wrap x mx ≤ mx := by
  rw [wrap_eq_ite x mx hmx]
  split_ifs with h1 h2
  · constructor <;> linarith
  · constructor <;> linarith
  · constructor <;> linarith

/-- Claim C3 as stated fails at the period boundary: the agent at x = 7 on
an 8-wide grid with step 1 and cosine 1 lands pre-wrap exactly on x = 8,
and wrap's strict comparison `x > max` leaves it at 8, outside the claimed
half-open interval [0, 8). All hypotheses of the claim hold here: the
displacement 1 is below the dimension 8 and the cosine value is in
[-1, 1]. -/
theorem claim_C3_counterexample :
    ¬ ((rotate_and_move ⟨7, 0, 0⟩ 0 0 1 8 8 (fun _ => 1) (fun _ => 0)).x
        < ((8 : ℕ) : ℚ)) := by
  have hx : (rotate_and_move ⟨7, 0, 0⟩ 0 0 1 8 8 (fun _ => 1) (fun _ => 0)).x = 8 := by
    norm_num [rotate_and_move, wrap, TAU]
  rw [hx]
  norm_num

/-- Claim C3, amended: under the claim's hypotheses (heading in [0, 2pi],
position in the grid rectangle, one-step displacement strictly below each
dimension, sine and cosine bounded by 1 in absolute value) the updated
heading lies in the closed interval [0, 2pi] and the updated position in
[0, width] x [0, height]: the right endpoint is reachable exactly when the
pre-wrap value equals the period, because wrap compares with strict
inequality. Each coordinate is wrapped by a single conditional subtract or
add of the period, as the final two conjuncts state. -/
theorem claim_C3_amended (a : Agent) (direction rotation_angle step_distance : ℚ)
    (width height : ℕ) (cosf sinf : ℚ → ℚ)
    (hcos : ∀ t, |cosf t| ≤ 1) (hsin : ∀ t, |sinf t| ≤ 1)
    (hang0 : 0 ≤ a.angle) (hang1 : a.angle ≤ TAU)
    (hrot : |rotation_angle * direction| ≤ TAU)
    (hw0 : 0 < width) (hh0 : 0 < height)
    (hx0 : 0 ≤ a.x) (hx1 : a.x ≤ (width : ℚ)) (hy0 : 0 ≤ a.y) (hy1 : a.y ≤ (height : ℚ))
    (hs0 : 0 ≤ step_distance) (hsw : step_distance < (width : ℚ))
    (hsh : step_distance < (height : ℚ)) :
    0 ≤ (rotate_and_move a direction rotation_angle step_distance width height cosf sinf).angle ∧
    (rotate_and_move a direction rotation_angle step_distance width height cosf sinf).angle
      ≤ TAU ∧
    0 ≤ (rotate_and_move a direction rotation_angle step_distance width height cosf sinf).x ∧
    (rotate_and_move a direction rotation_angle step_distance width height cosf sinf).x
      ≤ (width : ℚ) ∧
    0 ≤ (rotate_and_move a direction rotation_angle step_distance width height cosf sinf).y ∧
    (rotate_and_move a direction rotation_angle step_distance width height cosf sinf).y
      ≤ (height : ℚ) ∧
    (rotate_and_move a direction rotation_angle step_distance width height cosf sinf).x
      = (if (width : ℚ) < a.x + step_distance * cosf
            (rotate_and_move a direction rotation_angle step_distance width height cosf sinf).angle
         then a.x + step_distance * cosf
            (rotate_and_move a direction rotation_angle step_distance width height cosf sinf).angle
              - (width : ℚ)
         else if a.x + step_distance * cosf
            (rotate_and_move a direction rotation_angle step_distance width height cosf sinf).angle
              < 0
         then a.x + step_distance * cosf
            (rotate_and_move a direction rotation_angle step_distance width height cosf sinf).angle
              + (width : ℚ)
         else a.x + step_distance * cosf
            (rotate_and_move a direction rotation_angle step_distance width height cosf sinf).angle) ∧
    (rotate_and_move a direction rotation_angle step_distance width height cosf sinf).y
      = (if (height : ℚ) < a.y + step_distance * sinf
            (rotate_and_move a direction rotation_angle step_distance width height cosf sinf).angle
         then a.y + step_distance * sinf
            (rotate_and_move a direction rotation_angle step_distance width height cosf sinf).angle
              - (height : ℚ)
         else if a.y + step_distance * sinf
            (rotate_and_move a direction rotation_angle step_distance width height cosf sinf).angle
              < 0
         then a.y + step_distance * sinf
            (rotate_and_move a direction rotation_angle step_distance width height cosf sinf).angle
              + (height : ℚ)
         else a.y + step_distance * sinf
            (rotate_and_move a direction rotation_angle step_distance width height cosf sinf).angle) := by
  have htau : (0 : ℚ) < TAU := by norm_num [TAU]
  have hrot2 := abs_le.mp hrot
  have hW : (0 : ℚ) < (width : ℚ) := by exact_mod_cast hw0
  have hH : (0 : ℚ) < (height : ℚ) := by exact_mod_cast hh0
  have hangle : (rotate_and_move a direction rotation_angle step_distance width height
      cosf sinf).angle = wrap (a.angle + rotation_angle * direction) TAU := rfl
  have hangmem := wrap_bounds htau
    (show -TAU ≤ a.angle + rotation_angle * direction by linarith)
    (show a.angle + rotation_angle * direction ≤ 2 * TAU by linarith)
  have hxpre := abs_le.mp (show |step_distance * cosf (wrap
      (a.angle + rotation_angle * direction) TAU)| ≤ step_distance by
    rw [abs_mul, abs_of_nonneg hs0]
    calc step_distance * |cosf (wrap (a.angle + rotation_angle * direction) TAU)|
        ≤ step_distance * 1 := by
          exact mul_le_mul_of_nonneg_left (hcos _) hs0
      _ = step_distance := mul_one _)
  have hypre := abs_le.mp (show |step_distance * sinf (wrap
      (a.angle + rotation_angle * direction) TAU)| ≤ step_distance by
    rw [abs_mul, abs_of_nonneg hs0]
    calc step_distance * |sinf (wrap (a.angle + rotation_angle * direction) TAU)|
        ≤ step_distance * 1 := by
          exact mul_le_mul_of_nonneg_left (hsin _) hs0
      _ = step_distance := mul_one _)
  have hxv : (rotate_and_move a direction rotation_angle step_distance width height
      cosf sinf).x = wrap (a.x + step_distance * cosf (wrap
        (a.angle + rotation_angle * direction) TAU)) (width : ℚ) := rfl
  have hyv : (rotate_and_move a direction rotation_angle step_distance width height
      cosf sinf).y = wrap (a.y + step_distance * sinf (wrap
        (a.angle + rotation_angle * direction) TAU)) (height : ℚ) := rfl
  have hxmem := wrap_bounds hW
    (show -(width : ℚ) ≤ a.x + step_distance * cosf (wrap
      (a.angle + rotation_angle * direction) TAU) by linarith)
    (show a.x + step_distance * cosf (wrap (a.angle + rotation_angle * direction) TAU)
      ≤ 2 * (width : ℚ) by linarith)
  have hymem := wrap_bounds hH
    (show -(height : ℚ) ≤ a.y + step_distance * sinf (wrap
      (a.angle + rotation_angle * direction) TAU) by linarith)
    (show a.y + step_distance * sinf (wrap (a.angle + rotation_angle * direction) TAU)
      ≤ 2 * (height : ℚ) by linarith)
  refine ⟨?_, ?_, ?_, ?_, ?_, ?_, ?_, ?_⟩
  · rw [hangle]; exact hangmem.1
  · rw [hangle]; exact hangmem.2
  · rw [hxv]; exact hxmem.1
  · rw [hxv]; exact hxmem.2
  · rw [hyv]; exact hymem.1
  · rw [hyv]; exact hymem.2
  · rw [hxv, hangle, wrap_eq_ite _ _ hW]
  · rw [hyv, hangle, wrap_eq_ite _ _ hH]

/-- Claim C3 amended, instantiated: an agent at (1/2, 1/2) with heading 1,
rotation 1, step 1 on an 8 x 8 grid and trigonometric oracle values 1/2 and
-1/2 stays in the closed rectangle and keeps a heading in [0, 2pi]. -/
theorem claim_C3_witness :
    0 ≤ (rotate_and_move ⟨1/2, 1/2, 1⟩ 1 1 1 8 8
        (fun _ => 1/2) (fun _ => -(1/2))).angle ∧
    (rotate_and_move ⟨1/2, 1/2, 1⟩ 1 1 1 8 8
        (fun _ => 1/2) (fun _ => -(1/2))).angle ≤ TAU ∧
    0 ≤ (rotate_and_move ⟨1/2, 1/2, 1⟩ 1 1 1 8 8
        (fun _ => 1/2) (fun _ => -(1/2))).x ∧
    (rotate_and_move ⟨1/2, 1/2, 1⟩ 1 1 1 8 8
        (fun _ => 1/2) (fun _ => -(1/2))).x ≤ ((8 : ℕ) : ℚ) ∧
    0 ≤ (rotate_and_move ⟨1/2, 1/2, 1⟩ 1 1 1 8 8
        (fun _ => 1/2) (fun _ => -(1/2))).y ∧
    (rotate_and_move ⟨1/2, 1/2, 1⟩ 1 1 1 8 8
        (fun _ => 1/2) (fun _ => -(1/2))).y ≤ ((8 : ℕ) : ℚ) :=
  by
  have h := claim_C3_amended ⟨1/2, 1/2, 1⟩ 1 1 1 8 8 (fun _ => 1/2) (fun _ => -(1/2))
    (fun t => by norm_num [abs_le]) (fun t => by norm_num [abs_le])
    (by norm_num) (by norm_num [TAU]) (by norm_num [TAU, abs_le])
    (by norm_num) (by norm_num)
    (by norm_num) (by norm_num) (by norm_num) (by norm_num)
    (by norm_num) (by norm_num) (by norm_num)
  exact ⟨h.1, h.2.1, h.2.2.1, h.2.2.2.1, h.2.2.2.2.1, h.2.2.2.2.2.1⟩

/-- Claim C6 fails on the code: the implementation truncates
`len * fraction` toward zero (floor for these nonnegative values) rather
than taking the ceiling. On the two-cell field [0, 10] with fraction 0.3
the claimed nearest-rank index is ceil(0.6) = 1, whose order statistic is
10, but Grid::quantile computes index floor(0.6) = 0 and returns 0. -/
theorem claim_C6_counterexample :
    quantile [0, 10] (3/10) = 0 ∧ quantile_spec [0, 10] (3/10) = 10 := by
  constructor
  · unfold quantile
    rw [if_neg (show ¬ |(3/10 : ℚ) - 1| < f32_epsilon by
      rw [show |(3/10 : ℚ) - 1| = 7/10 from by
        rw [abs_of_nonpos (by norm_num)]
        norm_num]
      norm_num [f32_epsilon])]
    rw [show (List.length [(0 : ℚ), 10]) = 2 from rfl]
    rw [show ⌊((2 : ℕ) : ℚ) * (3/10)⌋ = 0 from by rw [Int.floor_eq_iff]; norm_num]
    decide
  · unfold quantile_spec
    rw [show (List.length [(0 : ℚ), 10]) = 2 from rfl]
    rw [show ⌈((2 : ℕ) : ℚ) * (3/10)⌉ = 1 from by rw [Int.ceil_eq_iff]; norm_num]
    decide

/-- Claim C6, amended: quantile uses the truncated index
floor(fraction * N) (not the ceiling), with the special case that any
fraction within f32::EPSILON of 1.0 selects index N - 1; consequently on a
nonempty field and a fraction in [0, 1] the returned value is always an
element of the field, and quantile(1.0) returns the maximum field value. -/
theorem claim_C6_amended (data : List ℚ) (fraction : ℚ) (hne : data ≠ [])
    (h0 : 0 ≤ fraction) (h1 : fraction ≤ 1) :
    quantile data fraction ∈ data ∧
    quantile data 1 ∈ data ∧ ∀ x ∈ data, x ≤ quantile data 1 := by
  have hlen0 : 0 < data.length := List.length_pos.mpr hne
  have hslen : (data.insertionSort (· ≤ ·)).length = data.length :=
    List.length_insertionSort _ _
  have hperm : List.Perm (data.insertionSort (· ≤ ·)) data := List.perm_insertionSort _ _
  have hsort : List.Sorted (· ≤ ·) (data.insertionSort (· ≤ ·)) :=
    List.sorted_insertionSort _ _
  have hmem : ∀ idx : ℕ, idx < data.length →
      (data.insertionSort (· ≤ ·)).getD idx 0 ∈ data := by
    intro idx hidx
    have hidx2 : idx < (data.insertionSort (· ≤ ·)).length := by omega
    rw [List.getD_eq_getElem _ _ hidx2]
    exact hperm.mem_iff.mp (List.getElem_mem _)
  have hidx_lt : ∀ f : ℚ, 0 ≤ f → f ≤ 1 →
      (if |f - 1| < f32_epsilon then data.length - 1
       else Int.toNat ⌊(data.length : ℚ) * f⌋) < data.length := by
    intro f hf0 hf1
    split_ifs with heps
    · omega
    · have hflt : f < 1 := by
        rcases lt_or_eq_of_le hf1 with h | h
        · exact h
        · exfalso
          apply heps
          rw [h]
          norm_num [f32_epsilon]
      have hprod : (data.length : ℚ) * f < (data.length : ℚ) := by
        calc (data.length : ℚ) * f < (data.length : ℚ) * 1 := by
              apply mul_lt_mul_of_pos_left hflt
              exact_mod_cast hlen0
          _ = (data.length : ℚ) := mul_one _
      have hfl : ⌊(data.length : ℚ) * f⌋ < (data.length : ℤ) := by
        rw [Int.floor_lt]
        exact_mod_cast hprod
      omega
  refine ⟨?_, ?_, ?_⟩
  · exact hmem _ (hidx_lt fraction h0 h1)
  · exact hmem _ (hidx_lt 1 (by norm_num) (by norm_num))
  · intro x hx
    have hq : quantile data 1
        = (data.insertionSort (· ≤ ·)).getD (data.length - 1) 0 := by
      unfold quantile
      rw [if_pos (show |(1 : ℚ) - 1| < f32_epsilon by norm_num [f32_epsilon])]
    rw [hq]
    have hxs : x ∈ data.insertionSort (· ≤ ·) := hperm.mem_iff.mpr hx
    obtain ⟨k, hk, hkx⟩ := List.mem_iff_getElem.mp hxs
    have hlast : data.length - 1 < (data.insertionSort (· ≤ ·)).length := by omega
    rw [List.getD_eq_getElem _ _ hlast]
    rw [← hkx]
    rcases lt_or_eq_of_le (show k ≤ data.length - 1 by omega) with hlt | heq
    · exact List.pairwise_iff_getElem.mp hsort k (data.length - 1) hk hlast hlt
    · subst heq
      exact le_refl _

/-- Claim C6 amended, instantiated on the field [3, 1, 2] with
fraction 1/2. -/
theorem claim_C6_witness :
    quantile [3, 1, 2] (1/2) ∈ ([3, 1, 2] : List ℚ) ∧
    quantile [3, 1, 2] 1 ∈ ([3, 1, 2] : List ℚ) ∧
    ∀ x ∈ ([3, 1, 2] : List ℚ), x ≤ quantile [3, 1, 2] 1 :=
  claim_C6_amended [3, 1, 2] (1/2) (by simp) (by norm_num) (by norm_num)

lemma is_power_of_two_iff (n : ℕ) : is_power_of_two n = true ↔ ∃ k, n = 2 ^ k := by
  unfold is_power_of_two
  rw [List.any_eq_true]
  constructor
  · rintro ⟨k, _, hk⟩
    exact ⟨k, by simpa using hk⟩
  · rintro ⟨k, rfl⟩
    refine ⟨k, List.mem_range.mpr ?_, by simp⟩
    have := Nat.lt_two_pow k
    omega

/-- Claim C9: Grid::new fails fatally (modeled as none, with no recovery
path) exactly when at least one requested dimension is not a power of two;
on success the grid records the dimensions, the field holds the samples
drawn from the RNG stream, and the mix buffer is zeroed. -/
theorem claim_C9_grid_new (w h : ℕ) (rng : ℕ → ℚ) :
    (Grid.new w h rng = none ↔ ¬ ((∃ k, w = 2 ^ k) ∧ (∃ k, h = 2 ^ k))) ∧
    ∀ g : Grid, Grid.new w h rng = some g →
      g.width = w ∧ g.height = h ∧ (∀ idx, g.data idx = rng idx) ∧
        ∀ idx, g.buf idx = 0 := by
  unfold Grid.new
  by_cases hcond : (is_power_of_two w && is_power_of_two h) = true
  · rw [if_pos hcond]
    have hboth : (∃ k, w = 2 ^ k) ∧ (∃ k, h = 2 ^ k) := by
      have hpair : is_power_of_two w = true ∧ is_power_of_two h = true := by
        simpa using hcond
      exact ⟨(is_power_of_two_iff w).mp hpair.1, (is_power_of_two_iff h).mp hpair.2⟩
    constructor
    · constructor
      · intro hsome
        exact absurd hsome (Option.some_ne_none _)
      · intro hneg
        exact absurd hboth hneg
    · intro g hg
      injection hg with hg2
      subst hg2
      exact ⟨rfl, rfl, fun _ => rfl, fun _ => rfl⟩
  · rw [if_neg hcond]
    constructor
    · constructor
      · intro _ hboth
        apply hcond
        simp only [Bool.and_eq_true]
        exact ⟨(is_power_of_two_iff w).mpr hboth.1, (is_power_of_two_iff h).mpr hboth.2⟩
      · intro _
        rfl
    · intro g hg
      exact Option.noConfusion hg

/-- Claim C9, instantiated: an 8 x 4 grid constructs, a 5 x 4 grid aborts. -/
theorem claim_C9_witness :
    Grid.new 8 4 (fun _ => (1 : ℚ)/2) ≠ none ∧
    Grid.new 5 4 (fun _ => (1 : ℚ)/2) = none := by
  constructor
  · intro hnone
    have h := (claim_C9_grid_new 8 4 (fun _ => (1 : ℚ)/2)).1.mp hnone
    exact h ⟨⟨3, by norm_num⟩, ⟨2, by norm_num⟩⟩
  · apply (claim_C9_grid_new 5 4 (fun _ => (1 : ℚ)/2)).1.mpr
    rintro ⟨⟨k, hk⟩, -⟩
    rcases k with _ | _ | _ | k
    · simp at hk
    · simp at hk
    · simp at hk
    · have h8 : 8 ≤ 2 ^ (k + 3) := by
        calc (8 : ℕ) = 2 ^ 3 := by norm_num
          _ ≤ 2 ^ (k + 3) := Nat.pow_le_pow_right (by norm_num) (by omega)
      omega
